import Mathlib

/-!
# Papyrus core — formal verification of the key/value codec and layer model

A shallow embedding, in Lean 4, of the core of the `papyrus` key-value
store: the `Value` wire codec (`papyrus/types/value.py`), the typed keys
(`papyrus/types/key.py`), the in-memory layer (`papyrus/layers/mem.py`),
the append-only-log record codec (`papyrus/layers/files/aol.py`) and the
storage facade (`papyrus/storage.py`).

Bytes are modelled as `List Nat` (each element a byte value `< 256` where
produced by the encoders).  Python functions that raise become
`Option`-returning functions (`none` = raised).  The external zlib
compressor is kept abstract: encoders take a `compress : List Nat → List Nat`
argument and decoders a `decompress : List Nat → Option (List Nat)`
argument; theorems that need the zlib round-trip assume
`∀ bs, decompress (compress bs) = some bs`.
-/

set_option maxRecDepth 8000

namespace Papyrus

/-! ## Byte-level primitives -/

/-- Big-endian encoding of `n` into exactly `w` bytes
(the model of Python `int.to_bytes(w, "big")` / `struct.pack(">I", ·)`;
out-of-range values wrap modulo `256 ^ w` byte by byte). -/
def natToBytesBE : Nat → Nat → List Nat
  | 0, _ => []
  | w + 1, n => natToBytesBE w (n / 256) ++ [n % 256]

/-- Big-endian decoding of a byte list
(the model of Python `int.from_bytes(data, "big")` / `struct.unpack(">I", ·)`). -/
def natFromBytesBE (l : List Nat) : Nat :=
  l.foldl (fun acc b => acc * 256 + b) 0

theorem natToBytesBE_length (w n : Nat) : (natToBytesBE w n).length = w := by
  induction w generalizing n with
  | zero => rfl
  | succ w ih => simp [natToBytesBE, ih]

theorem natFromBytesBE_append (l₁ l₂ : List Nat) :
    natFromBytesBE (l₁ ++ l₂) =
      (natFromBytesBE l₁) * 256 ^ l₂.length + natFromBytesBE l₂ := by
  suffices h : ∀ (l : List Nat) (a : Nat),
      l.foldl (fun acc b => acc * 256 + b) a = a * 256 ^ l.length + l.foldl (fun acc b => acc * 256 + b) 0 by
    unfold natFromBytesBE
    rw [List.foldl_append, h l₂ (l₁.foldl (fun acc b => acc * 256 + b) 0)]
  intro l
  induction l with
  | nil => intro a; simp
  | cons b t ih =>
    intro a
    simp only [List.foldl_cons, List.length_cons]
    rw [ih (a * 256 + b), ih (0 * 256 + b)]
    ring

theorem natFromBytesBE_toBytesBE (w n : Nat) :
    natFromBytesBE (natToBytesBE w n) = n % 256 ^ w := by
  induction w generalizing n with
  | zero => simp [natToBytesBE, natFromBytesBE, Nat.mod_one]
  | succ w ih =>
    rw [natToBytesBE, natFromBytesBE_append, ih]
    show (n / 256) % 256 ^ w * 256 ^ [n % 256].length + natFromBytesBE [n % 256] = n % 256 ^ (w + 1)
    have h1 : natFromBytesBE [n % 256] = n % 256 := by
      simp [natFromBytesBE]
    rw [h1, List.length_singleton, pow_one]
    rw [Nat.pow_succ, show (256:Nat) ^ w * 256 = 256 * 256 ^ w by ring, Nat.mod_mul]
    ring

theorem natFromBytesBE_toBytesBE_of_lt {w n : Nat} (h : n < 256 ^ w) :
    natFromBytesBE (natToBytesBE w n) = n := by
  rw [natFromBytesBE_toBytesBE, Nat.mod_eq_of_lt h]

/-- Adler-32 checksum (`zlib.adler32`), over bytes with initial state
`a = 1, b = 0`; result is `b * 65536 + a`. -/
def adler32 (data : List Nat) : Nat :=
  let s := data.foldl
    (fun (p : Nat × Nat) c =>
      let a := (p.1 + c) % 65521
      (a, (p.2 + a) % 65521))
    (1, 0)
  s.2 * 65536 + s.1

/-! ## ValueType and Value (`papyrus/types/value.py`) -/

/-- `ValueType`: the category of a `Value` (`NIL = 0`, `RAW = 1`,
`CMP = 2`, `DEL = 3`). -/
inductive ValueType
  | NIL
  | RAW
  | CMP
  | DEL
deriving DecidableEq, Repr

/-- The integer tag of a `ValueType` (`ValueType.__int__`). -/
def ValueType.toNat : ValueType → Nat
  | .NIL => 0
  | .RAW => 1
  | .CMP => 2
  | .DEL => 3

/-- `ValueType(n)`: the enum lookup (`fromNat` here; Lean reserves `ofNat`), `none` when the tag is invalid. -/
def ValueType.fromNat : Nat → Option ValueType
  | 0 => some .NIL
  | 1 => some .RAW
  | 2 => some .CMP
  | 3 => some .DEL
  | _ => none

/-- A well-formed `Value`: `nil`/`del` carry no payload (`raw is None`),
`raw`/`cmp` carry the stored bytes.  This is the `(vtype, raw)` pair of
`Value.__init__` for values built through the documented paths
(`Value(None)`, the tombstone factory, `Value(bytes)`, and the `CMP`
promotion/pinning). -/
inductive Value
  | nil
  | del
  | raw (bs : List Nat)
  | cmp (bs : List Nat)
deriving DecidableEq, Repr

/-- The model of `Value.__init__(raw, vtype=None)`: `None → NIL`,
`bytes → RAW`, promoted to `CMP` when longer than `0x1000000` bytes. -/
def Value.ofPython (r : Option (List Nat)) : Value :=
  match r with
  | none => .nil
  | some bs => if bs.length > 0x1000000 then .cmp bs else .raw bs

/-- `Value.to_bytes` (`value.py` lines 107–125): a 4-byte big-endian head
`(vtype << 24) + len(data)`, the payload, `32 - len(payload) % 32` NUL
padding bytes, then the 4-byte big-endian Adler-32 of everything before it. -/
def Value.toBytes (compress : List Nat → List Nat) (v : Value) : List Nat :=
  let vt : Nat := match v with
    | .nil => 0
    | .del => 3
    | .raw _ => 1
    | .cmp _ => 2
  let data : List Nat := match v with
    | .nil => []
    | .del => []
    | .raw bs => bs
    | .cmp bs => compress bs
  let head := vt * 2 ^ 24 + data.length
  let payload := natToBytesBE 4 head ++ data
  let padded := payload ++ List.replicate (32 - payload.length % 32) 0
  padded ++ natToBytesBE 4 (adler32 padded)

/-- `Value.from_bytes` (`value.py` lines 128–158): length check, head
parse, vtype lookup, payload slice, checksum check against the whole
tail, then the per-vtype reconstruction (`CMP` inflates through
`decompress`). -/
def Value.fromBytes (decompress : List Nat → Option (List Nat))
    (data : List Nat) : Option Value :=
  if data.length < 32 then none else
  let head := natFromBytesBE (data.take 4)
  let size := head % 2 ^ 24
  match ValueType.fromNat (head / 2 ^ 24) with
  | none => none
  | some vtype =>
    if data.length < size + 4 then none else
    let payload := (data.drop 4).take size
    let padding := 32 - (4 + size) % 32
    let checksum := data.drop (4 + size + padding)
    if checksum = natToBytesBE 4 (adler32 (data.take (4 + size + padding))) then
      match vtype with
      | .NIL => some .nil
      | .DEL => some .del
      | .RAW => some (Value.ofPython (some payload))
      | .CMP => (decompress payload).map .cmp
    else none

/-- The numeric vtype tag used by `Value.to_bytes`. -/
def vTag : Value → Nat
  | .nil => 0
  | .del => 3
  | .raw _ => 1
  | .cmp _ => 2

/-- The payload bytes written by `Value.to_bytes` (`CMP` deflates through
`compress`, `NIL`/`DEL` write nothing). -/
def vPayload (compress : List Nat → List Nat) : Value → List Nat
  | .nil => []
  | .del => []
  | .raw bs => bs
  | .cmp bs => compress bs

theorem Value.toBytes_eq (compress : List Nat → List Nat) (v : Value) :
    Value.toBytes compress v =
      (natToBytesBE 4 (vTag v * 2 ^ 24 + (vPayload compress v).length)
          ++ vPayload compress v
          ++ List.replicate (32 - (4 + (vPayload compress v).length) % 32) 0)
        ++ natToBytesBE 4 (adler32
            (natToBytesBE 4 (vTag v * 2 ^ 24 + (vPayload compress v).length)
              ++ vPayload compress v
              ++ List.replicate (32 - (4 + (vPayload compress v).length) % 32) 0)) := by
  cases v <;>
    first
      | rfl
      | simp only [Value.toBytes, vTag, vPayload, List.length_append,
          natToBytesBE_length, List.append_assoc]

/-- Aligning `x` up by `32 - x % 32` lands on the next strictly larger
multiple of 32. -/
theorem align_up_eq (x : Nat) : x + (32 - x % 32) = 32 * (x / 32 + 1) := by
  have h1 : x % 32 < 32 := Nat.mod_lt x (by norm_num)
  have h2 : 32 * (x / 32) + x % 32 = x := Nat.div_add_mod x 32
  omega

theorem Value.toBytes_length (compress : List Nat → List Nat) (v : Value) :
    (Value.toBytes compress v).length =
      32 * ((4 + (vPayload compress v).length) / 32 + 1) + 4 := by
  rw [Value.toBytes_eq]
  simp only [List.length_append, natToBytesBE_length, List.length_replicate]
  have := align_up_eq (4 + (vPayload compress v).length)
  omega

/-- **C1.** The claim says `NIL`, `DEL` and `Value(b"")` serialize to
exactly 32 bytes and every record length is a multiple of 32 *including*
the 4-byte Adler-32 tail.  The code pads only `header+payload` to a
32-byte boundary and then appends the 4-byte checksum after it, so those
three records are 36 bytes long and every record length is `≡ 4 (mod 32)`
— never a multiple of 32.  The true part of the claim — the checksum is
the Adler-32 of every byte before it — is the final conjunct. -/
theorem value_record_length_mod32 :
    (Value.toBytes id Value.nil).length = 36 ∧
    (Value.toBytes id Value.del).length = 36 ∧
    (Value.toBytes id (Value.raw [])).length = 36 ∧
    (∀ (compress : List Nat → List Nat) (v : Value),
      (Value.toBytes compress v).length % 32 = 4) ∧
    (∀ (compress : List Nat → List Nat) (v : Value),
      ∃ pre, Value.toBytes compress v = pre ++ natToBytesBE 4 (adler32 pre)) := by
  refine ⟨by decide, by decide, by decide, ?_, ?_⟩
  · intro compress v
    rw [Value.toBytes_length]
    omega
  · intro compress v
    exact ⟨_, Value.toBytes_eq compress v⟩

/-! ## Wire-format lemmas for `Value` -/

/-- The wire image produced by `Value.to_bytes` for a numeric vtype tag and
a payload: header, payload, NUL padding to the next 32-byte boundary,
then the 4-byte Adler-32 of that prefix. -/
def wireOf (vt : Nat) (data : List Nat) : List Nat :=
  let payload := natToBytesBE 4 (vt * 2 ^ 24 + data.length) ++ data
  let padded := payload ++ List.replicate (32 - payload.length % 32) 0
  padded ++ natToBytesBE 4 (adler32 padded)

theorem Value.toBytes_eq_wireOf (compress : List Nat → List Nat) (v : Value) :
    Value.toBytes compress v = wireOf (vTag v) (vPayload compress v) := by
  cases v <;> rfl

theorem wireOf_eq (vt : Nat) (data : List Nat) :
    wireOf vt data =
      (natToBytesBE 4 (vt * 2 ^ 24 + data.length) ++ data
          ++ List.replicate (32 - (4 + data.length) % 32) 0)
        ++ natToBytesBE 4 (adler32
            (natToBytesBE 4 (vt * 2 ^ 24 + data.length) ++ data
              ++ List.replicate (32 - (4 + data.length) % 32) 0)) := by
  simp only [wireOf, List.length_append, natToBytesBE_length]

theorem take_exact {α : Type} (l₁ l₂ : List α) {n : Nat} (h : l₁.length = n) :
    (l₁ ++ l₂).take n = l₁ := by
  rw [List.take_append_of_le_length (le_of_eq h.symm), ← h, List.take_length]

theorem drop_exact {α : Type} (l₁ l₂ : List α) {n : Nat} (h : l₁.length = n) :
    (l₁ ++ l₂).drop n = l₂ := by
  rw [List.drop_append_of_le_length (le_of_eq h.symm), ← h, List.drop_length,
    List.nil_append]

/-- Decoding a well-formed wire image whose payload fits the 24-bit size
field reproduces the vtype dispatch of `Value.from_bytes`. -/
theorem Value.fromBytes_wireOf (decompress : List Nat → Option (List Nat))
    (vt : Nat) (data : List Nat) (hvt : vt ≤ 3) (hL : data.length < 2 ^ 24) :
    Value.fromBytes decompress (wireOf vt data) =
      match ValueType.fromNat vt with
      | none => none
      | some .NIL => some .nil
      | some .RAW => some (Value.ofPython (some data))
      | some .CMP => (decompress data).map Value.cmp
      | some .DEL => some .del := by
  have h24 : (2:Nat) ^ 24 = 16777216 := by norm_num
  have h2564 : (256:Nat) ^ 4 = 4294967296 := by norm_num
  rw [wireOf_eq]
  set L := data.length with hLdef
  set hdr := natToBytesBE 4 (vt * 2 ^ 24 + L) with hhdr
  set pad := List.replicate (32 - (4 + L) % 32) 0 with hpdef
  set padded := hdr ++ data ++ pad with hpadded
  set ck := natToBytesBE 4 (adler32 padded) with hck
  have hhdr_len : hdr.length = 4 := natToBytesBE_length _ _
  have hpad_len : pad.length = 32 - (4 + L) % 32 := List.length_replicate _ _
  have hpadded_len : padded.length = 32 * ((4 + L) / 32 + 1) := by
    have := align_up_eq (4 + L)
    simp only [hpadded, List.length_append, hhdr_len, hpad_len]
    omega
  have hck_len : ck.length = 4 := natToBytesBE_length _ _
  have hlen : (padded ++ ck).length = 32 * ((4 + L) / 32 + 1) + 4 := by
    simp [List.length_append, hpadded_len, hck_len]
  have hassoc : padded ++ ck = hdr ++ (data ++ (pad ++ ck)) := by
    simp [hpadded, List.append_assoc]
  have htake4 : (padded ++ ck).take 4 = hdr := by
    rw [hassoc]; exact take_exact _ _ hhdr_len
  have hL16 : L < 16777216 := h24 ▸ hL
  have hhead : natFromBytesBE ((padded ++ ck).take 4) = vt * 2 ^ 24 + L := by
    rw [htake4, hhdr, natFromBytesBE_toBytesBE_of_lt]
    rw [h24, h2564]
    omega
  have hdiv : (vt * 2 ^ 24 + L) / 2 ^ 24 = vt := by
    rw [h24]; omega
  have hmod : (vt * 2 ^ 24 + L) % 2 ^ 24 = L := by
    rw [h24]; omega
  have hdrop4 : (padded ++ ck).drop 4 = data ++ (pad ++ ck) := by
    rw [hassoc]; exact drop_exact _ _ hhdr_len
  have hpayload : ((padded ++ ck).drop 4).take L = data := by
    rw [hdrop4]; exact take_exact _ _ rfl
  have htail : (padded ++ ck).drop (4 + L + (32 - (4 + L) % 32)) = ck := by
    apply drop_exact
    simp only [hpadded, List.length_append, hhdr_len, hpad_len]
  have hpre : (padded ++ ck).take (4 + L + (32 - (4 + L) % 32)) = padded := by
    apply take_exact
    simp only [hpadded, List.length_append, hhdr_len, hpad_len]
  have hnot32 : ¬((padded ++ ck).length < 32) := by rw [hlen]; omega
  have hnotsz : ¬((padded ++ ck).length < L + 4) := by rw [hlen]; omega
  cases hfn : ValueType.fromNat vt with
  | none =>
    simp only [Value.fromBytes, hhead, hdiv, hfn, if_neg hnot32]
  | some vtype =>
    simp only [Value.fromBytes, hhead, hdiv, hmod, hfn, if_neg hnot32,
      if_neg hnotsz, hpayload, htail, hpre, if_pos hck, eq_self_iff_true,
      if_true]
    cases vtype <;> rfl

/-- **C2 (amended).** Round-trip of the `Value` codec, for every value
whose wire payload fits the 24-bit size field: decoding re-inflates a
`CMP` payload through `decompress` and keeps the vtype, and `NIL`, `DEL`
and zero-length `RAW` round-trip exactly.  `compress`/`decompress` model
zlib, assumed mutually inverse. -/
theorem value_roundtrip (compress : List Nat → List Nat)
    (decompress : List Nat → Option (List Nat))
    (hinv : ∀ bs, decompress (compress bs) = some bs)
    (v : Value) (hsize : (vPayload compress v).length < 2 ^ 24) :
    Value.fromBytes decompress (Value.toBytes compress v) = some v := by
  rw [Value.toBytes_eq_wireOf,
    Value.fromBytes_wireOf decompress (vTag v) (vPayload compress v)
      (by cases v <;> simp [vTag]) hsize]
  cases v with
  | nil => rfl
  | del => rfl
  | raw bs =>
    show some (Value.ofPython (some bs)) = some (Value.raw bs)
    simp only [vPayload] at hsize
    simp [Value.ofPython]
    omega
  | cmp bs =>
    show (decompress (compress bs)).map Value.cmp = some (Value.cmp bs)
    rw [hinv]; rfl

/-- Any input of the shape `wireOf vt data ++ s` whose checksum slice
cannot be 4 bytes long fails to decode: the decoder takes *everything*
after the 32-byte-aligned prefix as the checksum field and compares it
with the 4-byte Adler-32 packing. -/
theorem Value.fromBytes_wire_trailing (decompress : List Nat → Option (List Nat))
    (vt : Nat) (data s : List Nat)
    (hne : 32 * ((4 + data.length) / 32 + 1) + s.length ≠
      32 * ((4 + data.length % 2 ^ 24) / 32 + 1)) :
    Value.fromBytes decompress (wireOf vt data ++ s) = none := by
  have h24 : (2:Nat) ^ 24 = 16777216 := by norm_num
  rw [wireOf_eq]
  set L := data.length with hLdef
  set hdr := natToBytesBE 4 (vt * 2 ^ 24 + L) with hhdr
  set pad := List.replicate (32 - (4 + L) % 32) 0 with hpdef
  set padded := hdr ++ data ++ pad with hpadded
  set ck := natToBytesBE 4 (adler32 padded) with hck
  have hhdr_len : hdr.length = 4 := natToBytesBE_length _ _
  have hpad_len : pad.length = 32 - (4 + L) % 32 := List.length_replicate _ _
  have hpadded_len : padded.length = 32 * ((4 + L) / 32 + 1) := by
    have := align_up_eq (4 + L)
    simp only [hpadded, List.length_append, hhdr_len, hpad_len]
    omega
  have hck_len : ck.length = 4 := natToBytesBE_length _ _
  have hlen : (padded ++ ck ++ s).length = 32 * ((4 + L) / 32 + 1) + 4 + s.length := by
    simp +arith [List.length_append, hpadded_len, hck_len]
  have hassoc : padded ++ ck ++ s = hdr ++ (data ++ (pad ++ (ck ++ s))) := by
    simp [hpadded, List.append_assoc]
  have htake4 : (padded ++ ck ++ s).take 4 = hdr := by
    rw [hassoc]; exact take_exact _ _ hhdr_len
  have hhead : natFromBytesBE ((padded ++ ck ++ s).take 4) =
      (vt * 2 ^ 24 + L) % 2 ^ 32 := by
    rw [htake4, hhdr, natFromBytesBE_toBytesBE]
    norm_num
  have hmod : ((vt * 2 ^ 24 + L) % 2 ^ 32) % 2 ^ 24 = L % 2 ^ 24 := by
    have h32 : (2:Nat) ^ 32 = 4294967296 := by norm_num
    rw [h24, h32]
    omega
  set sz := L % 2 ^ 24 with hsz
  have hsize_le : sz ≤ L := Nat.mod_le _ _
  have hdiv_le : (4 + sz) / 32 ≤ (4 + L) / 32 :=
    Nat.div_le_div_right (Nat.add_le_add_left hsize_le 4)
  have halign := align_up_eq (4 + sz)
  have hnot32 : ¬((padded ++ ck ++ s).length < 32) := by rw [hlen]; omega
  have hnotsz : ¬((padded ++ ck ++ s).length < sz + 4) := by
    rw [hlen]; omega
  have htail_len : ((padded ++ ck ++ s).drop (4 + sz + (32 - (4 + sz) % 32))).length =
      32 * ((4 + L) / 32 + 1) + 4 + s.length - 32 * ((4 + sz) / 32 + 1) := by
    rw [List.length_drop, hlen]
    omega
  have hckne : (padded ++ ck ++ s).drop (4 + sz + (32 - (4 + sz) % 32)) ≠
      natToBytesBE 4 (adler32 ((padded ++ ck ++ s).take (4 + sz + (32 - (4 + sz) % 32)))) := by
    intro heq
    have hl := congrArg List.length heq
    rw [htail_len, natToBytesBE_length] at hl
    omega
  cases hfn : ValueType.fromNat (((vt * 2 ^ 24 + L) % 2 ^ 32) / 2 ^ 24) with
  | none =>
    simp only [Value.fromBytes, hhead, hfn, if_neg hnot32]
  | some vtype =>
    simp only [Value.fromBytes, hhead, hmod, ← hsz, hfn, if_neg hnot32,
      if_neg hnotsz, if_neg hckne]

/-- **C2 (counterexample).** The round-trip claim fails as stated: a `RAW`
value of exactly `2 ^ 24` bytes is constructible (`Value.__init__` only
promotes to `CMP` for payloads *strictly longer than* `0x1000000` bytes —
first conjunct), its payload length overflows the 24-bit size field into
the vtype byte, and `Value.from_bytes` then rejects its own encoding. -/
theorem value_roundtrip_cex :
    Value.ofPython (some (List.replicate (2 ^ 24) 0))
        = Value.raw (List.replicate (2 ^ 24) 0) ∧
    Value.fromBytes some
      (Value.toBytes id (Value.raw (List.replicate (2 ^ 24) 0))) = none := by
  constructor
  · show Value.ofPython (some (List.replicate (2 ^ 24) 0)) = _
    rw [Value.ofPython]
    rw [if_neg (by rw [List.length_replicate]; norm_num)]
  · have h := Value.fromBytes_wire_trailing some 1 (List.replicate (2 ^ 24) 0) []
      (by rw [List.length_replicate]; norm_num)
    rw [List.append_nil] at h
    rw [Value.toBytes_eq_wireOf]
    rw [show vTag (Value.raw (List.replicate (2 ^ 24) 0)) = 1 from rfl]
    rw [show vPayload id (Value.raw (List.replicate (2 ^ 24) 0))
        = List.replicate (2 ^ 24) 0 from rfl]
    exact h

/-- **C10.** Decoding requires the exact encoding length: appending any
non-empty suffix to a valid `Value` encoding makes `Value.from_bytes`
fail, because the checksum slice (everything after the aligned prefix)
grows past 4 bytes and can no longer equal the 4-byte Adler-32 packing. -/
theorem value_fromBytes_rejects_trailing (compress : List Nat → List Nat)
    (decompress : List Nat → Option (List Nat)) (v : Value) (s : List Nat)
    (hs : s ≠ []) :
    Value.fromBytes decompress (Value.toBytes compress v ++ s) = none := by
  rw [Value.toBytes_eq_wireOf]
  apply Value.fromBytes_wire_trailing
  have hslen : 0 < s.length := List.length_pos.mpr hs
  have hmodle : (vPayload compress v).length % 2 ^ 24 ≤ (vPayload compress v).length :=
    Nat.mod_le _ _
  have hdivle : (4 + (vPayload compress v).length % 2 ^ 24) / 32 ≤
      (4 + (vPayload compress v).length) / 32 :=
    Nat.div_le_div_right (Nat.add_le_add_left hmodle 4)
  omega

/-- Witness for `value_fromBytes_rejects_trailing` at a concrete input. -/
theorem value_fromBytes_rejects_trailing_witness :
    ([7] : List Nat) ≠ [] ∧
    Value.fromBytes some (Value.toBytes id (Value.raw [1, 2]) ++ [7]) = none :=
  ⟨by decide,
    value_fromBytes_rejects_trailing id some (Value.raw [1, 2]) [7] (by decide)⟩

/-- Witness for `value_roundtrip` at concrete inputs. -/
theorem value_roundtrip_witness :
    (∀ bs : List Nat, some bs = some bs) ∧
    (vPayload id (Value.raw [104, 105])).length < 2 ^ 24 ∧
    Value.fromBytes some (Value.toBytes id (Value.raw [104, 105]))
      = some (Value.raw [104, 105]) :=
  ⟨fun _ => rfl, by decide,
    value_roundtrip id some (fun _ => rfl) (Value.raw [104, 105]) (by decide)⟩

/-! ## KeyType and detection (`papyrus/types/key.py`, lines 171–220) -/

/-- `KeyType`: the five key categories of the source enum
(`BOOL = 0`, `WORD = 1`, `INT = 2`, `STR = 3`, `TEXT = 4`). -/
inductive KeyType
  | BOOL
  | WORD
  | INT
  | STR
  | TEXT
deriving DecidableEq, Repr

/-- The tag ordinal (`KeyType.value`). -/
def KeyType.toTag : KeyType → Nat
  | .BOOL => 0
  | .WORD => 1
  | .INT => 2
  | .STR => 3
  | .TEXT => 4

/-- `KeyType.cap()`: the serialized width in bytes. -/
def KeyType.cap : KeyType → Nat
  | .BOOL => 1
  | .WORD => 2
  | .INT => 16
  | .STR => 64
  | .TEXT => 256

/-- The enum lookup `KeyType(n)`, `none` for an invalid ordinal. -/
def KeyType.fromTag : Nat → Option KeyType
  | 0 => some .BOOL
  | 1 => some .WORD
  | 2 => some .INT
  | 3 => some .STR
  | 4 => some .TEXT
  | _ => none

/-- A raw Python value that `KeyType.detect` can classify: a bool, an
int, or a str. -/
inductive RawKey
  | bool (b : Bool)
  | int (n : Int)
  | str (s : String)
deriving DecidableEq, Repr

/-- `KeyType.detect(raw)` (`key.py` lines 206–220): `bool()` first, then
`int()` split on the `[-32768, 32767]` range, then `str()` split on
length `< 64` / `< 256`; anything else raises (`none`). -/
def KeyType.detect : RawKey → Option KeyType
  | .bool _ => some .BOOL
  | .int n => if -32768 ≤ n ∧ n ≤ 32767 then some .WORD else some .INT
  | .str s =>
    if s.length < 64 then some .STR
    else if s.length < 256 then some .TEXT
    else none

/-- Which categories admit a raw value, per the match arms of `detect`
(a Python `bool` is an `int` with value 0/1, so `WORD` and `INT` admit
it too; strings are admitted by `STR`/`TEXT` according to length). -/
def KeyType.admitsb : KeyType → RawKey → Bool
  | .BOOL, .bool _ => true
  | .WORD, .bool _ => true
  | .WORD, .int n => decide (-32768 ≤ n ∧ n ≤ 32767)
  | .INT, .bool _ => true
  | .INT, .int _ => true
  | .STR, .str s => decide (s.length < 64)
  | .TEXT, .str s => decide (s.length < 256)
  | _, _ => false

/-- **C3 (counterexample).** The claim says `detect(2⁶³) == UID`, a
category distinct from `INT` (= `detect(32768)`); the source `KeyType`
enum has no `UID` member and `detect` sends every out-of-`WORD`-range
integer, `2⁶³` included, to `INT`. -/
theorem keytype_detect_cex :
    KeyType.detect (.int (2 ^ 63)) = some KeyType.INT ∧
    KeyType.detect (.int 32768) = some KeyType.INT ∧
    KeyType.fromTag 3 = some KeyType.STR := by
  refine ⟨by decide, by decide, rfl⟩

/-- **C3 (amended).** `detect` picks the narrowest of the *five*
categories `{BOOL, WORD, INT, STR, TEXT}` admitting the value, with
booleans binding tighter than integers; `detect(true) == BOOL`,
`detect(-256) == WORD`, `detect(32768) == INT`, `detect(2⁶³) == INT`,
`detect("a"*63) == STR`, `detect("a"*255) == TEXT`. -/
theorem keytype_detect_narrowest :
    KeyType.detect (.bool true) = some KeyType.BOOL ∧
    KeyType.detect (.int (-256)) = some KeyType.WORD ∧
    KeyType.detect (.int 32768) = some KeyType.INT ∧
    KeyType.detect (.int (2 ^ 63)) = some KeyType.INT ∧
    KeyType.detect (.str (String.mk (List.replicate 63 'a'))) = some KeyType.STR ∧
    KeyType.detect (.str (String.mk (List.replicate 255 'a'))) = some KeyType.TEXT ∧
    (∀ raw kt, KeyType.detect raw = some kt →
      KeyType.admitsb kt raw = true ∧
        ∀ kt', KeyType.admitsb kt' raw = true → kt.toTag ≤ kt'.toTag) := by
  refine ⟨by decide, by decide, by decide, by decide, by decide, by decide, ?_⟩
  intro raw kt h
  cases raw with
  | bool b =>
    simp only [KeyType.detect, Option.some.injEq] at h
    subst h
    exact ⟨rfl, fun kt' _ => Nat.zero_le _⟩
  | int n =>
    by_cases hr : -32768 ≤ n ∧ n ≤ 32767
    · simp only [KeyType.detect, if_pos hr, Option.some.injEq] at h
      subst h
      refine ⟨by simp [KeyType.admitsb, hr], ?_⟩
      intro kt' h'
      cases kt' <;> simp [KeyType.admitsb, KeyType.toTag] at h' ⊢
    · simp only [KeyType.detect, if_neg hr, Option.some.injEq] at h
      subst h
      refine ⟨rfl, ?_⟩
      intro kt' h'
      cases kt' <;> simp [KeyType.admitsb, KeyType.toTag] at h' ⊢
      exact absurd h' hr
  | str s =>
    by_cases h64 : s.length < 64
    · simp only [KeyType.detect, if_pos h64, Option.some.injEq] at h
      subst h
      refine ⟨by simp [KeyType.admitsb, h64], ?_⟩
      intro kt' h'
      cases kt' <;> simp [KeyType.admitsb, KeyType.toTag] at h' ⊢
    · by_cases h256 : s.length < 256
      · simp only [KeyType.detect, if_neg h64, if_pos h256, Option.some.injEq] at h
        subst h
        refine ⟨by simp [KeyType.admitsb, h256], ?_⟩
        intro kt' h'
        cases kt' <;> simp [KeyType.admitsb, KeyType.toTag] at h' ⊢
        exact absurd h' h64
      · simp only [KeyType.detect, if_neg h64, if_neg h256] at h
        exact absurd h (by simp)

/-- Witness for `keytype_detect_narrowest` at a concrete input. -/
theorem keytype_detect_narrowest_witness :
    KeyType.admitsb KeyType.WORD (.int (-256)) = true ∧
    KeyType.WORD.toTag ≤ KeyType.INT.toTag :=
  ⟨((keytype_detect_narrowest.2.2.2.2.2.2) (.int (-256)) KeyType.WORD (by decide)).1,
   ((keytype_detect_narrowest.2.2.2.2.2.2) (.int (-256)) KeyType.WORD (by decide)).2
     KeyType.INT (by decide)⟩

/-! ## Python dict/set primitives for the in-memory layer

Python `dict` preserves insertion order and updates in place; `set` is
modelled as a duplicate-free list with membership-guarded insertion. -/

/-- `d.get(k)` / `d[k]` lookup on an insertion-ordered association list. -/
def dictGet {K V : Type} [DecidableEq K] : List (K × V) → K → Option V
  | [], _ => none
  | (k0, v0) :: t, k => if k = k0 then some v0 else dictGet t k

/-- `d[k] = v`: update in place when present, append otherwise. -/
def dictSet {K V : Type} [DecidableEq K] : List (K × V) → K → V → List (K × V)
  | [], k, v => [(k, v)]
  | (k0, v0) :: t, k, v =>
    if k = k0 then (k0, v) :: t else (k0, v0) :: dictSet t k v

/-- `s.add(k)`. -/
def setAdd {K : Type} [DecidableEq K] (s : List K) (k : K) : List K :=
  if k ∈ s then s else s ++ [k]

/-- `s.remove(k)` / `s.discard(k)` (removal of every occurrence; in
`MemLayer.delete` the key is always present because `insert` just added
it, so `remove` never raises). -/
def setRemove {K : Type} [DecidableEq K] (s : List K) (k : K) : List K :=
  s.filter (fun x => x ≠ k)

theorem dictGet_set_self {K V : Type} [DecidableEq K]
    (d : List (K × V)) (k : K) (v : V) : dictGet (dictSet d k v) k = some v := by
  induction d with
  | nil => simp [dictGet, dictSet]
  | cons h t ih =>
    obtain ⟨k0, v0⟩ := h
    by_cases hk : k = k0
    · simp [dictGet, dictSet, hk]
    · simp [dictGet, dictSet, hk, ih]

theorem dictGet_set_other {K V : Type} [DecidableEq K]
    (d : List (K × V)) {k k' : K} (v : V) (hne : k' ≠ k) :
    dictGet (dictSet d k v) k' = dictGet d k' := by
  induction d with
  | nil => simp [dictGet, dictSet, hne]
  | cons h t ih =>
    obtain ⟨k0, v0⟩ := h
    by_cases hk : k = k0
    · subst hk
      simp [dictGet, dictSet, hne]
    · by_cases hk' : k' = k0
      · simp [dictGet, dictSet, hk, hk']
      · simp [dictGet, dictSet, hk, hk', ih]

theorem mem_setAdd {K : Type} [DecidableEq K] (s : List K) (k x : K) :
    x ∈ setAdd s k ↔ x ∈ s ∨ x = k := by
  unfold setAdd
  by_cases hk : k ∈ s
  · simp only [if_pos hk]
    constructor
    · exact Or.inl
    · rintro (h | rfl)
      · exact h
      · exact hk
  · simp [if_neg hk]

theorem mem_setRemove {K : Type} [DecidableEq K] (s : List K) (k x : K) :
    x ∈ setRemove s k ↔ x ∈ s ∧ x ≠ k := by
  unfold setRemove
  simp [List.mem_filter]

/-! ## Data and MemLayer (`papyrus/types/data.py`, `papyrus/layers/mem.py`) -/

/-- `Data` (`types/data.py`): primary key, optional value payload,
searchable tags, tombstone flag.  Keys are abstracted to a decidable
type `K`; the value payload is opaque to the layer (never inspected by
`mem.py`). -/
structure MData (K : Type) where
  primaryKey : K
  value : Option (List Nat) := none
  tags : List (String × K) := []
  isDeleted : Bool := false
deriving DecidableEq, Repr

/-- The state of `MemLayer` (`layers/mem.py`): `_mem : dict[UniqueID, Data]`,
`_keys : set[Key]`, `_revision : dict[Key, list[Data]]`,
`_search : dict[str, dict[Key, set[Key]]]`.  `UniqueID.new()` is modelled
by a fresh-id counter `nextUid` (the Python id is random 128-bit and
assumed collision-free). -/
structure MemLayer (K : Type) where
  mem : List (Nat × MData K) := []
  keys : List K := []
  revision : List (K × List (MData K)) := []
  search : List (String × List (K × List K)) := []
  nextUid : Nat := 0
deriving DecidableEq, Repr

/-- The empty, freshly-constructed layer (`MemLayer.__init__`). -/
def MemLayer.empty (K : Type) : MemLayer K :=
  { mem := [], keys := [], revision := [], search := [], nextUid := 0 }

/-- `MemLayer.insert(data)` (`mem.py` lines 47–61): mint a uid, record
the revision, add the primary key to `_keys` (unconditionally), append
to `_revision[primary_key]`, and index every tag.  Returns the uid.
There is no threshold or fullness check anywhere in the method. -/
def MemLayer.insert {K : Type} [DecidableEq K]
    (st : MemLayer K) (d : MData K) : MemLayer K × Nat :=
  let uid := st.nextUid
  let mem' := dictSet st.mem uid d
  let keys' := setAdd st.keys d.primaryKey
  let revision' := dictSet st.revision d.primaryKey
    ((dictGet st.revision d.primaryKey).getD [] ++ [d])
  let search' := d.tags.foldl
    (fun s tv =>
      let pool := (dictGet s tv.1).getD []
      let keyset := (dictGet pool tv.2).getD []
      dictSet s tv.1 (dictSet pool tv.2 (setAdd keyset d.primaryKey)))
    st.search
  ({ mem := mem', keys := keys', revision := revision', search := search',
     nextUid := uid + 1 }, uid)

/-- `MemLayer.delete(key)` (`mem.py` lines 63–73): insert a tombstone
`Data(key, is_deleted=True)`, then remove the key from `_keys` and
discard it from every tag posting set. -/
def MemLayer.delete {K : Type} [DecidableEq K]
    (st : MemLayer K) (k : K) : MemLayer K × Nat :=
  let d : MData K := { primaryKey := k, isDeleted := true }
  let p := st.insert d
  ({ p.1 with
      keys := setRemove p.1.keys k,
      search := p.1.search.map
        (fun nv => (nv.1, nv.2.map (fun vk => (vk.1, setRemove vk.2 k)))) },
    p.2)

/-- `MemLayer.purge()` (`mem.py` lines 96–103), exactly as written: the
dict comprehension
`{key: [r for r in revision if not r.is_deleted] for key, revision in self._revision.items() for key in self._keys}`
re-binds `key` in the inner `for`, so every key in `_keys` is assigned
the filtered revisions of each item in turn (the last item wins); then
`_mem` keeps the entries whose primary key is still in `_keys`. -/
def MemLayer.purge {K : Type} [DecidableEq K] (st : MemLayer K) : MemLayer K :=
  let revision' := st.revision.foldl
    (fun acc kr =>
      st.keys.foldl
        (fun acc k => dictSet acc k (kr.2.filter (fun r => !r.isDeleted)))
        acc)
    []
  let mem' := st.mem.filter (fun ud => decide (ud.2.primaryKey ∈ st.keys))
  { st with revision := revision', mem := mem' }

/-- `MemLayer.cap` (`mem.py` lines 42–44): total rows including
tombstones, `len(self._mem)`. -/
def MemLayer.cap {K : Type} (st : MemLayer K) : Nat := st.mem.length

/-- `BaseLayer.is_full` (`layers/_base.py` lines 86–91): true iff the
threshold is set and the row count reaches it.  (`_base.py` reads the
abstract property `capacity`; `MemLayer`'s row-count property is spelled
`cap` — the only row count the mem layer defines.) -/
def MemLayer.isFull {K : Type} (threshold : Option Nat) (st : MemLayer K) : Bool :=
  match threshold with
  | some t => st.cap ≥ t
  | none => false

/-- **C5.** The claim (and the repo's own
`test_layer_insert_hit_threshold`) requires insert of a *new* key on a
full layer to fail with `Threshold`.  `MemLayer.insert` performs no
fullness check at all: on a layer with `threshold = 1` already holding
key 1 (`is_full` true, key 2 absent) the insert of key 2 simply
succeeds, growing `cap` to 2 and adding the key. -/
theorem mem_insert_ignores_threshold :
    MemLayer.isFull (some 1)
        ((MemLayer.empty Nat).insert ⟨1, none, [], false⟩).1 = true ∧
    (2 : Nat) ∉ ((MemLayer.empty Nat).insert ⟨1, none, [], false⟩).1.keys ∧
    ((((MemLayer.empty Nat).insert ⟨1, none, [], false⟩).1.insert
        ⟨2, none, [], false⟩).1.cap = 2) ∧
    (2 : Nat) ∈ (((MemLayer.empty Nat).insert ⟨1, none, [], false⟩).1.insert
        ⟨2, none, [], false⟩).1.keys := by
  refine ⟨rfl, by decide, rfl, by decide⟩

/-- **C6 (counterexample).** The claim says `insert` adds the primary
key to `live_keys` *only when the data is not a tombstone*, so that a
key whose only revision is a tombstone is not a member of the layer.
`MemLayer.insert` adds the key unconditionally: after inserting
`Data(key=1, is_deleted=True)` into an empty layer, key 1 *is* a member
(and its last revision is a tombstone). -/
theorem mem_insert_tombstone_cex :
    (1 : Nat) ∈ ((MemLayer.empty Nat).insert ⟨1, none, [], true⟩).1.keys ∧
    ((MemLayer.empty Nat).insert ⟨1, none, [], true⟩).1.keys = [1] := by
  refine ⟨by decide, rfl⟩

/-- The states reachable through the documented write paths: a fresh
layer, `insert` of a non-tombstone `Data`, and `delete` (the only
operation of `mem.py` that creates tombstones). -/
inductive MemLayer.Reached {K : Type} [DecidableEq K] : MemLayer K → Prop
  | init : Reached (MemLayer.empty K)
  | insert {st : MemLayer K} (d : MData K) :
      Reached st → d.isDeleted = false → Reached (st.insert d).1
  | delete {st : MemLayer K} (k : K) :
      Reached st → Reached (st.delete k).1

/-- The layer's own notion of a live key: the key has a revision list
whose last entry is not a tombstone. -/
def MemLayer.lastIsLive {K : Type} [DecidableEq K]
    (st : MemLayer K) (k : K) : Bool :=
  match dictGet st.revision k with
  | none => false
  | some ds =>
    match ds.getLast? with
    | none => false
    | some d => !d.isDeleted

/-- **C6 (amended).** `insert` adds the primary key to `_keys`
unconditionally (tombstone or not); `delete` inserts the tombstone and
then removes the key.  Along every state reachable through non-tombstone
inserts and deletes — the only write paths `mem.py` itself uses —
`_keys` coincides with the set of keys whose last revision is not a
tombstone. -/
theorem MemLayer.insert_keys {K : Type} [DecidableEq K]
    (st : MemLayer K) (d : MData K) :
    ((st.insert d).1).keys = setAdd st.keys d.primaryKey := rfl

theorem MemLayer.insert_revision {K : Type} [DecidableEq K]
    (st : MemLayer K) (d : MData K) :
    ((st.insert d).1).revision = dictSet st.revision d.primaryKey
      ((dictGet st.revision d.primaryKey).getD [] ++ [d]) := rfl

theorem MemLayer.delete_keys {K : Type} [DecidableEq K]
    (st : MemLayer K) (k : K) :
    ((st.delete k).1).keys = setRemove (setAdd st.keys k) k := rfl

theorem MemLayer.delete_revision {K : Type} [DecidableEq K]
    (st : MemLayer K) (k : K) :
    ((st.delete k).1).revision = dictSet st.revision k
      ((dictGet st.revision k).getD [] ++ [⟨k, none, [], true⟩]) := rfl

theorem lastIsLive_set_self {K : Type} [DecidableEq K]
    (st' : MemLayer K) (rev : List (K × List (MData K))) (k : K)
    (old : List (MData K)) (d : MData K)
    (h : st'.revision = dictSet rev k (old ++ [d])) :
    st'.lastIsLive k = !d.isDeleted := by
  unfold MemLayer.lastIsLive
  rw [h, dictGet_set_self]
  simp [List.getLast?_concat]

theorem lastIsLive_set_other {K : Type} [DecidableEq K]
    (st' st : MemLayer K) (k0 k : K) (l : List (MData K)) (hne : k ≠ k0)
    (h : st'.revision = dictSet st.revision k0 l) :
    st'.lastIsLive k = st.lastIsLive k := by
  unfold MemLayer.lastIsLive
  rw [h, dictGet_set_other _ _ hne]

theorem mem_live_keys_invariant {K : Type} [DecidableEq K]
    (st : MemLayer K) (h : st.Reached) (k : K) :
    k ∈ st.keys ↔ st.lastIsLive k = true := by
  induction h with
  | init =>
    simp [MemLayer.empty, MemLayer.lastIsLive, dictGet]
  | @insert st d _ hlive ih =>
    rw [MemLayer.insert_keys, mem_setAdd]
    by_cases hk : k = d.primaryKey
    · rw [hk, lastIsLive_set_self _ st.revision d.primaryKey _ d
        (MemLayer.insert_revision st d), hlive]
      simp
    · rw [lastIsLive_set_other _ st _ _ _ hk (MemLayer.insert_revision st d)]
      simp only [hk, or_false]
      exact ih
  | @delete st k0 _ ih =>
    rw [MemLayer.delete_keys, mem_setRemove, mem_setAdd]
    by_cases hk : k = k0
    · rw [hk, lastIsLive_set_self _ st.revision k0 _ ⟨k0, none, [], true⟩
        (MemLayer.delete_revision st k0)]
      simp
    · rw [lastIsLive_set_other _ st _ _ _ hk (MemLayer.delete_revision st k0)]
      simp only [hk, or_false, ne_eq, not_false_eq_true, and_true]
      exact ih

/-- Witness for `mem_live_keys_invariant`: after inserting a live key 1
and deleting key 2 the invariant instance at key 1 holds. -/
theorem mem_live_keys_invariant_witness :
    ((1 : Nat) ∈ ((((MemLayer.empty Nat).insert ⟨1, none, [], false⟩).1.delete 2).1).keys
      ↔ (((MemLayer.empty Nat).insert ⟨1, none, [], false⟩).1.delete 2).1.lastIsLive 1 = true) :=
  mem_live_keys_invariant _
    (MemLayer.Reached.delete 2
      (MemLayer.Reached.insert ⟨1, none, [], false⟩ MemLayer.Reached.init rfl)) 1

/-- **C7.** The claim says `purge()` leaves, for every key still in
`live_keys`, exactly that key's non-tombstone revisions.  The dict
comprehension in `mem.py` re-binds `key` in its inner `for`, so every
live key receives the filtered revision list of the *last* item of
`_revision` instead of its own: with two live keys 1 and 2 (one
non-tombstone revision each), after `purge()` the history of key 1 is
key 2's revision list. -/
theorem mem_purge_scrambles_history :
    dictGet ((((MemLayer.empty Nat).insert ⟨1, none, [], false⟩).1.insert
        ⟨2, none, [], false⟩).1.purge).revision 1
      = some [⟨2, none, [], false⟩] ∧
    dictGet (((MemLayer.empty Nat).insert ⟨1, none, [], false⟩).1.insert
        ⟨2, none, [], false⟩).1.revision 1
      = some [⟨1, none, [], false⟩] ∧
    (1 : Nat) ∈ (((MemLayer.empty Nat).insert ⟨1, none, [], false⟩).1.insert
        ⟨2, none, [], false⟩).1.keys := by
  refine ⟨rfl, rfl, by decide⟩

/-! ## Storage facade (`papyrus/storage.py`) -/

/-- A layer as `Storage.layer` observes it: an opaque identity plus its
`is_full` observation.  (`Storage` treats layers abstractly, calling
only `is_full` and `dup()`.) -/
structure SLayer where
  ident : Nat
  full : Bool
deriving DecidableEq, Repr

/-- Modelled from the spec: `Layer.dup()` is called by `Storage.layer`
(`storage.py` line 51) but is defined nowhere under `src/`; per the spec
("duplicate it, append, and return the new one") it produces a copy of
the default-layer prototype. -/
def SLayer.dup (l : SLayer) : SLayer := { ident := l.ident, full := l.full }

/-- The layer-level error kinds raised by the storage paths modelled
here (`ThresholdLimit` from `layers/_base.py`). -/
inductive LayerError
  | thresholdLimit
deriving DecidableEq, Repr

/-- The storage state: the ordered, opened layers and the optional
default-layer prototype. -/
structure Storage where
  layers : List SLayer
  defaultLayer : Option SLayer
deriving DecidableEq, Repr

/-- The `for layer in self.layers: if not layer.is_full: return layer`
loop of `Storage.layer`. -/
def firstNotFull : List SLayer → Option SLayer
  | [] => none
  | l :: ls => if l.full then firstNotFull ls else some l

/-- `Storage.layer` (`storage.py` lines 43–55): first non-full layer in
declared order; else duplicate the default prototype, append it and
return it; else raise `ThresholdLimit`. -/
def Storage.layerOp (s : Storage) : Except LayerError (SLayer × Storage) :=
  match firstNotFull s.layers with
  | some l => .ok (l, s)
  | none =>
    match s.defaultLayer with
    | some d => .ok (d.dup, { s with layers := s.layers ++ [d.dup] })
    | none => .error .thresholdLimit

theorem firstNotFull_prefix (pre : List SLayer) (l : SLayer) (post : List SLayer)
    (hpre : ∀ p ∈ pre, p.full = true) (hl : l.full = false) :
    firstNotFull (pre ++ l :: post) = some l := by
  induction pre with
  | nil => simp [firstNotFull, hl]
  | cons p t ih =>
    have hp : p.full = true := hpre p (by simp)
    simp only [List.cons_append, firstNotFull, hp, if_true]
    exact ih (fun q hq => hpre q (by simp [hq]))

theorem firstNotFull_none (ls : List SLayer) (h : ∀ l ∈ ls, l.full = true) :
    firstNotFull ls = none := by
  induction ls with
  | nil => rfl
  | cons p t ih =>
    have hp : p.full = true := h p (by simp)
    simp only [firstNotFull, hp, if_true]
    exact ih (fun q hq => h q (by simp [hq]))

/-- **C8.** `storage.layer` returns the first layer in declared order
that is not full, leaving the layer list unchanged; when every layer is
full it duplicates the `default_layer` prototype, appends the duplicate
and returns it; when every layer is full and there is no default
prototype it fails with `Threshold`. -/
theorem storage_layer_spec (s : Storage) :
    (∀ pre l post, s.layers = pre ++ l :: post → (∀ p ∈ pre, p.full = true) →
      l.full = false → s.layerOp = .ok (l, s)) ∧
    ((∀ l ∈ s.layers, l.full = true) → ∀ d, s.defaultLayer = some d →
      s.layerOp = .ok (d.dup, { s with layers := s.layers ++ [d.dup] })) ∧
    ((∀ l ∈ s.layers, l.full = true) → s.defaultLayer = none →
      s.layerOp = .error .thresholdLimit) := by
  refine ⟨?_, ?_, ?_⟩
  · intro pre l post hsplit hpre hl
    unfold Storage.layerOp
    rw [hsplit, firstNotFull_prefix pre l post hpre hl]
  · intro hfull d hd
    unfold Storage.layerOp
    rw [firstNotFull_none s.layers hfull, hd]
  · intro hfull hd
    unfold Storage.layerOp
    rw [firstNotFull_none s.layers hfull, hd]

/-- Witness for `storage_layer_spec`: a two-layer storage whose first
layer is full routes to the second; the same layers with both full and a
default prototype append its duplicate; with no default they fail. -/
theorem storage_layer_spec_witness :
    Storage.layerOp ⟨[⟨0, true⟩, ⟨1, false⟩], none⟩
      = .ok (⟨1, false⟩, ⟨[⟨0, true⟩, ⟨1, false⟩], none⟩) ∧
    Storage.layerOp ⟨[⟨0, true⟩], some ⟨9, false⟩⟩
      = .ok (SLayer.dup ⟨9, false⟩, ⟨[⟨0, true⟩, SLayer.dup ⟨9, false⟩], some ⟨9, false⟩⟩) ∧
    Storage.layerOp ⟨[⟨0, true⟩], none⟩ = .error .thresholdLimit :=
  ⟨(storage_layer_spec ⟨[⟨0, true⟩, ⟨1, false⟩], none⟩).1
      [⟨0, true⟩] ⟨1, false⟩ [] rfl (by decide) rfl,
   (storage_layer_spec ⟨[⟨0, true⟩], some ⟨9, false⟩⟩).2.1
      (by decide) ⟨9, false⟩ rfl,
   (storage_layer_spec ⟨[⟨0, true⟩], none⟩).2.2 (by decide) rfl⟩

/-! ## Typed keys as serialized (`papyrus/types/key.py`, `Key`) and the
AOL record (`papyrus/layers/files/aol.py`, `Pair`) -/

/-- Little-endian encoding into exactly `w` bytes
(`struct.pack("<I", ·)`). -/
def natToBytesLE : Nat → Nat → List Nat
  | 0, _ => []
  | w + 1, n => n % 256 :: natToBytesLE w (n / 256)

/-- Little-endian decoding (`struct.unpack("<I", ·)`). -/
def natFromBytesLE (l : List Nat) : Nat :=
  l.foldr (fun b acc => acc * 256 + b) 0

theorem natToBytesLE_length (w n : Nat) : (natToBytesLE w n).length = w := by
  induction w generalizing n with
  | zero => rfl
  | succ w ih => simp [natToBytesLE, ih]

theorem natFromBytesLE_toBytesLE (w n : Nat) :
    natFromBytesLE (natToBytesLE w n) = n % 256 ^ w := by
  induction w generalizing n with
  | zero => simp [natToBytesLE, natFromBytesLE, Nat.mod_one]
  | succ w ih =>
    show natFromBytesLE (n % 256 :: natToBytesLE w (n / 256)) = n % 256 ^ (w + 1)
    show natFromBytesLE (natToBytesLE w (n / 256)) * 256 + n % 256 = _
    rw [ih, Nat.pow_succ, show (256:Nat) ^ w * 256 = 256 * 256 ^ w by ring,
      Nat.mod_mul]
    ring

/-- Signed big-endian encoding, `int.to_bytes(w, "big", signed=True)` as
a total function: two's complement modulo `2 ^ (8 w)` (the Python call
raises out of range; the round-trip theorems restrict to the ranges). -/
def intToBytesBE (w : Nat) (n : Int) : List Nat :=
  natToBytesBE w (n % (2 ^ (8 * w))).toNat

/-- Signed big-endian decoding, `int.from_bytes(data, "big", signed=True)`. -/
def intFromBytesBE (l : List Nat) : Int :=
  let m := natFromBytesBE l
  if m < 2 ^ (8 * l.length - 1) then (m : Int)
  else (m : Int) - 2 ^ (8 * l.length)

theorem intToBytesBE_length (w : Nat) (n : Int) :
    (intToBytesBE w n).length = w := natToBytesBE_length _ _

theorem intFromBytesBE_toBytesBE_2 (n : Int)
    (h1 : -32768 ≤ n) (h2 : n < 32768) :
    intFromBytesBE (intToBytesBE 2 n) = n := by
  unfold intToBytesBE intFromBytesBE
  simp only [natToBytesBE_length, natFromBytesBE_toBytesBE]
  rw [show (2:Int) ^ (8 * 2) = 65536 by norm_num,
    show (256:Nat) ^ 2 = 65536 by norm_num,
    show (2:Nat) ^ (8 * 2 - 1) = 32768 by norm_num]
  have hnonneg := Int.emod_nonneg n (by norm_num : (65536:Int) ≠ 0)
  have hlt := Int.emod_lt_of_pos n (by norm_num : (0:Int) < 65536)
  have hm : (n % 65536).toNat % 65536 = (n % 65536).toNat :=
    Nat.mod_eq_of_lt (by omega)
  rw [hm]
  split <;> omega

theorem intFromBytesBE_toBytesBE_16 (n : Int)
    (h1 : -(2 ^ 127) ≤ n) (h2 : n < 2 ^ 127) :
    intFromBytesBE (intToBytesBE 16 n) = n := by
  unfold intToBytesBE intFromBytesBE
  simp only [natToBytesBE_length, natFromBytesBE_toBytesBE]
  rw [show (2:Int) ^ (8 * 16) = 340282366920938463463374607431768211456 by norm_num,
    show (256:Nat) ^ 16 = 340282366920938463463374607431768211456 by norm_num,
    show (2:Nat) ^ (8 * 16 - 1) = 170141183460469231731687303715884105728 by norm_num]
  rw [show ((2:Int) ^ 127) = 170141183460469231731687303715884105728 by norm_num] at h1 h2
  have hnonneg := Int.emod_nonneg n
    (by norm_num : (340282366920938463463374607431768211456:Int) ≠ 0)
  have hlt := Int.emod_lt_of_pos n
    (by norm_num : (0:Int) < 340282366920938463463374607431768211456)
  have hm : (n % 340282366920938463463374607431768211456).toNat %
      340282366920938463463374607431768211456 =
      (n % 340282366920938463463374607431768211456).toNat :=
    Nat.mod_eq_of_lt (by omega)
  rw [hm]
  split <;> omega

/-- `str.rstrip("\x00")` on the UTF-8 byte form: drop trailing zero
bytes (a NUL byte never occurs inside a multi-byte UTF-8 sequence, so
byte-level stripping agrees with character-level stripping). -/
def rstrip0 (l : List Nat) : List Nat :=
  (l.reverse.dropWhile (fun b => b == 0)).reverse

theorem rstrip0_pad (s : List Nat) (k : Nat) (h : s.getLast? ≠ some 0) :
    rstrip0 (s ++ List.replicate k 0) = s := by
  unfold rstrip0
  rw [List.reverse_append, List.reverse_replicate]
  have hdrop : ∀ m, List.dropWhile (fun b => b == 0)
      (List.replicate m 0 ++ s.reverse) =
      List.dropWhile (fun b => b == 0) s.reverse := by
    intro m
    induction m with
    | zero => simp
    | succ m ih => simp [List.replicate_succ, List.dropWhile_cons, ih]
  rw [hdrop]
  cases hs : s.reverse with
  | nil =>
    have : s = [] := by simpa using congrArg List.reverse hs
    simp [this]
  | cons a t =>
    have ha : ¬ (a = 0) := by
      intro ha0
      apply h
      rw [← List.head?_reverse, hs, ha0]
      rfl
    rw [List.dropWhile_cons]
    simp only [beq_iff_eq, ha, if_false]
    rw [← hs, List.reverse_reverse]

/-- A typed key value as serialized by `Key.to_bytes`: the normalized
`(ktype, value)` pair, with string values carried as their UTF-8 bytes. -/
inductive PKey
  | bool (b : Bool)
  | word (n : Int)
  | int (n : Int)
  | str (s : List Nat)
  | text (s : List Nat)
deriving DecidableEq, Repr

/-- `Key.ktype`. -/
def PKey.ktype : PKey → KeyType
  | .bool _ => .BOOL
  | .word _ => .WORD
  | .int _ => .INT
  | .str _ => .STR
  | .text _ => .TEXT

/-- In-domain keys: integers within the signed width, strings that fit
the padded field and carry no trailing NUL (which `rstrip` would eat). -/
def PKey.wfb : PKey → Bool
  | .bool _ => true
  | .word n => decide (-32768 ≤ n ∧ n < 32768)
  | .int n => decide (-(2 ^ 127) ≤ n ∧ n < 2 ^ 127)
  | .str s => decide (s.length ≤ 64 ∧ s.getLast? ≠ some 0)
  | .text s => decide (s.length ≤ 256 ∧ s.getLast? ≠ some 0)

/-- `Key.to_bytes` (`key.py` lines 297–308): big-endian signed integers
at the ktype width, NUL-padded UTF-8 for strings. -/
def PKey.toBytes : PKey → List Nat
  | .bool b => intToBytesBE 1 (if b then 1 else 0)
  | .word n => intToBytesBE 2 n
  | .int n => intToBytesBE 16 n
  | .str s => s ++ List.replicate (64 - s.length) 0
  | .text s => s ++ List.replicate (256 - s.length) 0

/-- `Key.from_bytes` (`key.py` lines 310–331): dispatch on the byte
length (`bool(int)` truthiness for 1 byte, signed ints for 2/16,
`rstrip("\x00")`-ed strings for 64/256), raising for any other length. -/
def PKey.fromBytes (data : List Nat) : Option PKey :=
  if data.length = 1 then some (.bool (decide (intFromBytesBE data ≠ 0)))
  else if data.length = 2 then some (.word (intFromBytesBE data))
  else if data.length = 16 then some (.int (intFromBytesBE data))
  else if data.length = 64 then some (.str (rstrip0 data))
  else if data.length = 256 then some (.text (rstrip0 data))
  else none

theorem PKey.toBytes_width (k : PKey) (h : k.wfb = true) :
    k.toBytes.length = k.ktype.cap := by
  cases k with
  | bool b => simp [PKey.toBytes, PKey.ktype, KeyType.cap, intToBytesBE_length]
  | word n => simp [PKey.toBytes, PKey.ktype, KeyType.cap, intToBytesBE_length]
  | int n => simp [PKey.toBytes, PKey.ktype, KeyType.cap, intToBytesBE_length]
  | str s =>
    simp only [PKey.wfb, decide_eq_true_eq] at h
    simp only [PKey.toBytes, PKey.ktype, KeyType.cap, List.length_append,
      List.length_replicate]
    omega
  | text s =>
    simp only [PKey.wfb, decide_eq_true_eq] at h
    simp only [PKey.toBytes, PKey.ktype, KeyType.cap, List.length_append,
      List.length_replicate]
    omega

theorem PKey.fromBytes_toBytes (k : PKey) (h : k.wfb = true) :
    PKey.fromBytes k.toBytes = some k := by
  cases k with
  | bool b => cases b <;> decide
  | word n =>
    simp only [PKey.wfb, decide_eq_true_eq] at h
    unfold PKey.toBytes PKey.fromBytes
    rw [intToBytesBE_length]
    rw [if_neg (by norm_num), if_pos rfl,
      intFromBytesBE_toBytesBE_2 n h.1 h.2]
  | int n =>
    simp only [PKey.wfb, decide_eq_true_eq] at h
    unfold PKey.toBytes PKey.fromBytes
    rw [intToBytesBE_length]
    rw [if_neg (by norm_num), if_neg (by norm_num), if_pos rfl,
      intFromBytesBE_toBytesBE_16 n h.1 h.2]
  | str s =>
    simp only [PKey.wfb, decide_eq_true_eq] at h
    have hlen : (s ++ List.replicate (64 - s.length) 0).length = 64 := by
      simp only [List.length_append, List.length_replicate]; omega
    unfold PKey.toBytes PKey.fromBytes
    rw [hlen]
    rw [if_neg (by norm_num), if_neg (by norm_num), if_neg (by norm_num),
      if_pos rfl, rstrip0_pad s _ h.2]
  | text s =>
    simp only [PKey.wfb, decide_eq_true_eq] at h
    have hlen : (s ++ List.replicate (256 - s.length) 0).length = 256 := by
      simp only [List.length_append, List.length_replicate]; omega
    unfold PKey.toBytes PKey.fromBytes
    rw [hlen]
    rw [if_neg (by norm_num), if_neg (by norm_num), if_neg (by norm_num),
      if_neg (by norm_num), if_pos rfl, rstrip0_pad s _ h.2]

theorem KeyType.fromTag_toTag (kt : KeyType) :
    KeyType.fromTag kt.toTag = some kt := by
  cases kt <;> rfl

/-- The AOL record `Pair` (`aol.py` lines 24–73): a key and a value. -/
structure Pair where
  key : PKey
  value : Value
deriving DecidableEq, Repr

/-- `Pair.to_bytes` (`aol.py` lines 48–53): a 32-bit little-endian size
(byte count of ktype + key + value), the 8-bit `KeyType` ordinal, the
key bytes, the `Value` wire bytes, and the 16-bit `0x0000` padding. -/
def Pair.toBytes (compress : List Nat → List Nat) (p : Pair) : List Nat :=
  let payload := p.key.ktype.toTag :: (p.key.toBytes ++ p.value.toBytes compress)
  natToBytesLE 4 payload.length ++ payload ++ [0, 0]

/-- `Pair.from_bytes` (`aol.py` lines 55–73): length check, `<IB`
unpack, length check against `6 + size`, ktype lookup, key decode over
the key-width slice, value decode over `payload[5+width : 4+size]`, and
the padding check.  The source reads the key width as
`keytype.capacity`, an attribute `KeyType` does not define (its accessor
is `cap()`); the width is the only consistent reading and is used here. -/
def Pair.fromBytes (decompress : List Nat → Option (List Nat))
    (payload : List Nat) : Option Pair :=
  if payload.length < 4 then none
  else
    let size := natFromBytesLE (payload.take 4)
    let keytype := (payload.drop 4).headD 0
    if payload.length < 6 + size then none
    else
      match KeyType.fromTag keytype with
      | none => none
      | some kt =>
        match PKey.fromBytes ((payload.drop 5).take kt.cap) with
        | none => none
        | some key =>
          match Value.fromBytes decompress
              ((payload.take (4 + size)).drop (5 + kt.cap)) with
          | none => none
          | some value =>
            if (payload.drop (4 + size)).take 2 = [0, 0] then
              some ⟨key, value⟩
            else none

/-- **C9 (with `capacity` read as the key width `cap()`).** The AOL
record round-trips: for every pair whose key is in its ktype's domain
(no trailing NUL for string keys) and whose value payload fits the
24-bit size field, `Pair.from_bytes(p.to_bytes()) == p`. -/
theorem pair_roundtrip (compress : List Nat → List Nat)
    (decompress : List Nat → Option (List Nat))
    (hinv : ∀ bs, decompress (compress bs) = some bs)
    (p : Pair) (hk : p.key.wfb = true)
    (hv : (vPayload compress p.value).length < 2 ^ 24) :
    Pair.fromBytes decompress (Pair.toBytes compress p) = some p := by
  obtain ⟨key, value⟩ := p
  simp only at hk hv
  set kb := key.toBytes with hkb
  set vb := Value.toBytes compress value with hvb
  set tag := key.ktype.toTag with htag
  set P := tag :: (kb ++ vb) with hP
  have henc : Pair.toBytes compress ⟨key, value⟩ =
      natToBytesLE 4 P.length ++ P ++ [0, 0] := rfl
  have hkb_len : kb.length = key.ktype.cap := PKey.toBytes_width key hk
  have hvb_len : vb.length =
      32 * ((4 + (vPayload compress value).length) / 32 + 1) + 4 :=
    Value.toBytes_length compress value
  have hcap : key.ktype.cap ≤ 256 := by
    cases key <;> norm_num [PKey.ktype, KeyType.cap]
  have h24 : (2:Nat) ^ 24 = 16777216 := by norm_num
  rw [h24] at hv
  have hNval : P.length = 1 + key.ktype.cap + vb.length := by
    rw [hP]
    simp only [List.length_cons, List.length_append, hkb_len]
    omega
  have hle4 : (natToBytesLE 4 P.length).length = 4 := natToBytesLE_length _ _
  have henc_len : (natToBytesLE 4 P.length ++ P ++ [0, 0]).length =
      P.length + 6 := by
    simp only [List.length_append, hle4, List.length_cons, List.length_nil]
    omega
  have hsize : natFromBytesLE ((natToBytesLE 4 P.length ++ P ++ [0, 0]).take 4) =
      P.length := by
    rw [List.append_assoc, take_exact _ _ hle4, natFromBytesLE_toBytesLE]
    apply Nat.mod_eq_of_lt
    rw [show (256:Nat) ^ 4 = 4294967296 by norm_num, hNval]
    omega
  have hdrop4 : (natToBytesLE 4 P.length ++ P ++ [0, 0]).drop 4 = P ++ [0, 0] := by
    rw [List.append_assoc, drop_exact _ _ hle4]
  have hhead : ((natToBytesLE 4 P.length ++ P ++ [0, 0]).drop 4).headD 0 = tag := by
    rw [hdrop4, hP]
    rfl
  have hsplit5 : natToBytesLE 4 P.length ++ P ++ [0, 0] =
      (natToBytesLE 4 P.length ++ [tag]) ++ (kb ++ (vb ++ [0, 0])) := by
    rw [hP]
    simp [List.append_assoc]
  have hdrop5 : (natToBytesLE 4 P.length ++ P ++ [0, 0]).drop 5 =
      kb ++ (vb ++ [0, 0]) := by
    rw [hsplit5]
    exact drop_exact _ _ (by simp [hle4])
  have hkey_slice : ((natToBytesLE 4 P.length ++ P ++ [0, 0]).drop 5).take
      key.ktype.cap = kb := by
    rw [hdrop5]
    exact take_exact _ _ hkb_len
  have htake4N : (natToBytesLE 4 P.length ++ P ++ [0, 0]).take (4 + P.length) =
      natToBytesLE 4 P.length ++ P := by
    exact take_exact _ _ (by simp [hle4, Nat.add_comm])
  have hsplitkv : natToBytesLE 4 P.length ++ P =
      ((natToBytesLE 4 P.length ++ [tag]) ++ kb) ++ vb := by
    rw [hP]
    simp [List.append_assoc]
  have hval_slice : ((natToBytesLE 4 P.length ++ P ++ [0, 0]).take
      (4 + P.length)).drop (5 + key.ktype.cap) = vb := by
    rw [htake4N, hsplitkv]
    exact drop_exact _ _ (by simp only [List.length_append, List.length_cons,
      List.length_nil, hle4, hkb_len])
  have hpad : ((natToBytesLE 4 P.length ++ P ++ [0, 0]).drop (4 + P.length)).take 2
      = [0, 0] := by
    rw [drop_exact (natToBytesLE 4 P.length ++ P) [0, 0]
      (by simp [hle4, Nat.add_comm])]
    rfl
  have hkdec : PKey.fromBytes kb = some key := PKey.fromBytes_toBytes key hk
  have hvdec : Value.fromBytes decompress vb = some value := by
    rw [hvb]
    exact value_roundtrip compress decompress hinv value (by
      rw [h24]
      exact hv)
  have hc1 : ¬((natToBytesLE 4 P.length ++ P ++ [0, 0]).length < 4) := by
    rw [henc_len]; omega
  have hc2 : ¬((natToBytesLE 4 P.length ++ P ++ [0, 0]).length < 6 + P.length) := by
    rw [henc_len]; omega
  rw [henc]
  simp only [Pair.fromBytes, hsize, hhead, htag, KeyType.fromTag_toTag,
    hkey_slice, hkdec, hval_slice, hvdec, hpad,
    if_neg hc1, if_neg hc2, if_true, eq_self_iff_true]

/-- Witness for `pair_roundtrip` at a concrete record. -/
theorem pair_roundtrip_witness :
    (∀ bs : List Nat, some bs = some bs) ∧
    (PKey.word 42).wfb = true ∧
    (vPayload id (Value.raw [104, 105])).length < 2 ^ 24 ∧
    Pair.fromBytes some (Pair.toBytes id ⟨PKey.word 42, Value.raw [104, 105]⟩)
      = some ⟨PKey.word 42, Value.raw [104, 105]⟩ :=
  ⟨fun _ => rfl, by decide, by decide,
    pair_roundtrip id some (fun _ => rfl) ⟨PKey.word 42, Value.raw [104, 105]⟩
      (by decide) (by decide)⟩

/-! ## Crockford Base32 and the UniqueID string form
(`papyrus/types/key.py`, lines 15–38 and 94–96) -/

/-- `CrockfordBase32.ENCODING_TABLE`. -/
def ENCODING_TABLE : List Char := "0123456789ABCDEFGHJKMNPQRSTVWXYZ".toList

/-- `CrockfordBase32._encode`: least-significant 5-bit groups while the
key is positive (`key & 0x1F` indexes the table, `key >>= 5`).  The
index is always `< 32`, so the `getD` default is never used. -/
def crockfordDigits (k : Nat) : List Char :=
  if h : k = 0 then []
  else ENCODING_TABLE.getD (k % 32) '0' :: crockfordDigits (k / 32)
termination_by k
decreasing_by exact Nat.div_lt_self (Nat.pos_of_ne_zero h) (by norm_num)

/-- `CrockfordBase32.encode(key, size)`: reverse the digit stream, and
when a size is requested and the digits fall short, *append* (the code's
`chars.append(padding)` before the join) `size - len` copies of
`ENCODING_TABLE[0]`. -/
def crockfordEncode (key : Nat) (size : Nat) : List Char :=
  let chars := (crockfordDigits key).reverse
  if size ≠ 0 ∧ chars.length < size then
    chars ++ List.replicate (size - chars.length) '0'
  else chars

/-- `UniqueID.__str__`: `CrockfordBase32.encode(self._key, size=26)`. -/
def uniqueIdStr (key : Nat) : String := (crockfordEncode key 26).asString

theorem crockfordDigits_length_le (n : Nat) :
    ∀ k, k < 32 ^ n → (crockfordDigits k).length ≤ n := by
  induction n with
  | zero =>
    intro k hk
    interval_cases k
    simp [crockfordDigits]
  | succ n ih =>
    intro k hk
    rw [crockfordDigits]
    by_cases h0 : k = 0
    · simp [h0]
    · rw [dif_neg h0]
      have : (crockfordDigits (k / 32)).length ≤ n := by
        apply ih
        rw [Nat.div_lt_iff_lt_mul (by norm_num : (0:Nat) < 32)]
        calc k < 32 ^ (n + 1) := hk
          _ = 32 ^ n * 32 := by ring
      simpa using this

theorem table_getD_mem (i : Nat) : ENCODING_TABLE.getD i '0' ∈ ENCODING_TABLE := by
  rw [List.getD]
  rcases h : ENCODING_TABLE.get? i with _ | c
  · simp only [h, Option.getD_none]
    decide
  · simp only [h, Option.getD_some]
    exact List.get?_mem h

theorem crockfordDigits_mem (k : Nat) :
    ∀ c ∈ crockfordDigits k, c ∈ ENCODING_TABLE := by
  induction k using Nat.strong_induction_on with
  | _ k ih =>
    intro c hc
    rw [crockfordDigits] at hc
    by_cases h0 : k = 0
    · rw [dif_pos h0] at hc
      exact absurd hc (List.not_mem_nil c)
    · rw [dif_neg h0] at hc
      rcases List.mem_cons.mp hc with hhd | htl
      · rw [hhd]
        exact table_getD_mem _
      · exact ih (k / 32) (Nat.div_lt_self (Nat.pos_of_ne_zero h0) (by norm_num))
          c htl

/-- **C4 (counterexample).** The claim says the 26-character string is
zero-padded *on the left*.  `CrockfordBase32.encode` appends its padding
after the reversed digits, i.e. pads on the *right*: `str(UniqueID(1))`
is `"1"` followed by 25 zeros, not 25 zeros followed by `"1"`. -/
theorem uniqueIdStr_cex :
    uniqueIdStr 1 = "10000000000000000000000000" ∧
    uniqueIdStr 1 ≠ "00000000000000000000000001" := by
  constructor
  · simp [uniqueIdStr, crockfordEncode, crockfordDigits]
    decide
  · simp [uniqueIdStr, crockfordEncode, crockfordDigits]
    decide

/-- **C4 (amended).** For every 128-bit key the rendered string has
exactly 26 characters drawn from the Crockford alphabet
`0123456789ABCDEFGHJKMNPQRSTVWXYZ`, zero-padded on the *right*; `MIN`
(0) renders as 26 zeros and `MAX` (`2^128 - 1`) renders as `7` followed
by 25 `Z`s (no padding is involved for `MAX`, whose 26 digits fill the
field). -/
theorem uniqueIdStr_length_alphabet (k : Nat) (h : k < 2 ^ 128) :
    (uniqueIdStr k).length = 26 ∧
    (∀ c ∈ (uniqueIdStr k).toList, c ∈ ENCODING_TABLE) ∧
    uniqueIdStr 0 = "00000000000000000000000000" ∧
    uniqueIdStr (2 ^ 128 - 1) = "7ZZZZZZZZZZZZZZZZZZZZZZZZZ" := by
  have hdig : (crockfordDigits k).length ≤ 26 := by
    apply crockfordDigits_length_le 26 k
    calc k < 2 ^ 128 := h
      _ ≤ 32 ^ 26 := by norm_num
  refine ⟨?_, ?_,
    by simp [uniqueIdStr, crockfordEncode, crockfordDigits]; decide,
    by simp [uniqueIdStr, crockfordEncode, crockfordDigits]; decide⟩
  · rw [uniqueIdStr, List.length_asString]
    unfold crockfordEncode
    by_cases hlt : (crockfordDigits k).reverse.length < 26
    · rw [if_pos ⟨by norm_num, hlt⟩]
      simp only [List.length_append, List.length_replicate, List.length_reverse]
      simp only [List.length_reverse] at hlt
      omega
    · rw [if_neg (by
        simp only [ne_eq, not_and, not_lt]
        intro _
        omega)]
      simp only [List.length_reverse] at hlt ⊢
      omega
  · intro c hc
    rw [uniqueIdStr, List.toList_asString] at hc
    unfold crockfordEncode at hc
    by_cases hlt : (crockfordDigits k).reverse.length < 26
    · rw [if_pos ⟨by norm_num, hlt⟩] at hc
      rcases List.mem_append.mp hc with hrev | hpad
      · exact crockfordDigits_mem k c (List.mem_reverse.mp hrev)
      · rw [List.eq_of_mem_replicate hpad]
        decide
    · rw [if_neg (by
        simp only [ne_eq, not_and, not_lt]
        intro _
        omega)] at hc
      exact crockfordDigits_mem k c (List.mem_reverse.mp hc)

/-- Witness for `uniqueIdStr_length_alphabet` at a concrete key. -/
theorem uniqueIdStr_length_alphabet_witness :
    (5 : Nat) < 2 ^ 128 ∧ (uniqueIdStr 5).length = 26 :=
  ⟨by norm_num, (uniqueIdStr_length_alphabet 5 (by norm_num)).1⟩

end Papyrus
